import Mathlib

/-!
Shallow embedding of `demo/src/bin/perf_grouping.rs` (walkers repository).

Conventions:
* Rust `f64` values are modelled as `ℚ` (exact arithmetic); all samples and
  coordinates appearing in the verified properties are exactly representable.
* Rust `usize` is modelled as `ℕ`; `saturating_add` never saturates on `ℕ`,
  which is faithful because the counters are bounded by the capacity in use.
* The external crates (`rand`, `egui`/`eframe`, the `walkers` map widget) are
  modelled abstractly: `StdRng`/`gen_range` as a seeded deterministic stream of
  unit-interval samples, the per-frame callback as an explicit state-passing
  function over an input record (key/button events, the measured frame
  duration, ambient OS entropy).
* Rust panics (out-of-bounds slice/index) are modelled by `Option`-valued
  checked variants next to the total functions.
-/

/-! ## Rolling average accumulator (`RollingAvg<const N: usize>`) -/

/-- Small rolling average over last `N` frames.
`buf: [f64; N]` becomes a list (its length is `N` on every reachable state),
`i` the write cursor, `n` the count of valid samples. -/
structure RollingAvg (N : ℕ) where
  buf : List ℚ
  i : ℕ
  n : ℕ
deriving DecidableEq

/-- `RollingAvg::new`: zero-filled buffer, both counters zero. -/
def RollingAvg.new (N : ℕ) : RollingAvg N :=
  ⟨List.replicate N 0, 0, 0⟩

/-- `RollingAvg::reset`: cursor and count to zero, `buf.fill(0.0)`
(length-preserving overwrite of every slot with `0.0`). -/
def RollingAvg.reset {N : ℕ} (a : RollingAvg N) : RollingAvg N :=
  ⟨List.replicate a.buf.length 0, 0, 0⟩

/-- `RollingAvg::push_ms`: `buf[i % N] = v_ms; i += 1; n = n.saturating_add(1).min(N)`. -/
def RollingAvg.push_ms {N : ℕ} (a : RollingAvg N) (v_ms : ℚ) : RollingAvg N :=
  ⟨a.buf.set (a.i % N) v_ms, a.i + 1, min (a.n + 1) N⟩

/-- `RollingAvg::mean`: `let n = self.n.max(1); buf[..n].sum / n as f64`. -/
def RollingAvg.mean {N : ℕ} (a : RollingAvg N) : ℚ :=
  (a.buf.take (max a.n 1)).sum / (max a.n 1 : ℕ)

/-- Checked variant of `push_ms`: the Rust indexing `self.buf[self.i % N]`
panics unless `i % N` is in bounds; `none` models the panic. -/
def RollingAvg.push_msChecked {N : ℕ} (a : RollingAvg N) (v_ms : ℚ) :
    Option (RollingAvg N) :=
  if a.i % N < a.buf.length then some (a.push_ms v_ms) else none

/-- Checked variant of `mean`: the Rust slice `&self.buf[..n]` panics unless
`n ≤ buf.len()`; `none` models the panic. -/
def RollingAvg.meanChecked {N : ℕ} (a : RollingAvg N) : Option ℚ :=
  if max a.n 1 ≤ a.buf.length then some a.mean else none

/-- A sequence of pushes, in order. -/
def RollingAvg.pushList {N : ℕ} (a : RollingAvg N) (xs : List ℚ) : RollingAvg N :=
  xs.foldl RollingAvg.push_ms a

/-- The client-visible operations that mutate a `RollingAvg`. -/
inductive RAOp where
  | push (v : ℚ)
  | reset
deriving DecidableEq

/-- Apply one operation. -/
def RollingAvg.applyOp {N : ℕ} (a : RollingAvg N) : RAOp → RollingAvg N
  | .push v => a.push_ms v
  | .reset => a.reset

/-- Run a whole operation sequence. -/
def RollingAvg.runOps {N : ℕ} (a : RollingAvg N) (ops : List RAOp) : RollingAvg N :=
  ops.foldl RollingAvg.applyOp a

/-- The values pushed since the last `reset` (or since construction if no
`reset` occurs), oldest first. -/
def sinceReset (ops : List RAOp) : List ℚ :=
  ops.foldl (fun acc op => match op with | .push v => acc ++ [v] | .reset => []) []

/-- The most recent `min (xs.length) N` entries of `xs`. -/
def recentOf (N : ℕ) (xs : List ℚ) : List ℚ :=
  xs.drop (xs.length - N)

/-! ### Basic state lemmas -/

theorem RollingAvg.pushList_append {N : ℕ} (a : RollingAvg N) (xs : List ℚ) (v : ℚ) :
    a.pushList (xs ++ [v]) = (a.pushList xs).push_ms v := by
  simp [RollingAvg.pushList, List.foldl_append]

theorem RollingAvg.buf_length_push {N : ℕ} (a : RollingAvg N) (v : ℚ) :
    (a.push_ms v).buf.length = a.buf.length := by
  simp [RollingAvg.push_ms]

theorem RollingAvg.buf_length_pushList {N : ℕ} (a : RollingAvg N) (xs : List ℚ) :
    (a.pushList xs).buf.length = a.buf.length := by
  induction xs generalizing a with
  | nil => rfl
  | cons x xs ih =>
    simp only [RollingAvg.pushList, List.foldl_cons]
    simpa [RollingAvg.buf_length_push] using ih (a.push_ms x)

theorem RollingAvg.buf_length_new (N : ℕ) : (RollingAvg.new N).buf.length = N := by
  simp [RollingAvg.new]

theorem RollingAvg.i_pushList {N : ℕ} (a : RollingAvg N) (xs : List ℚ) :
    (a.pushList xs).i = a.i + xs.length := by
  induction xs generalizing a with
  | nil => simp [RollingAvg.pushList]
  | cons x xs ih =>
    simp only [RollingAvg.pushList, List.foldl_cons] at *
    rw [ih (a.push_ms x)]
    simp [RollingAvg.push_ms]
    omega

theorem RollingAvg.n_pushList {N : ℕ} (xs : List ℚ) :
    ((RollingAvg.new N).pushList xs).n = min xs.length N := by
  induction xs using List.reverseRecOn with
  | nil => simp [RollingAvg.pushList, RollingAvg.new]
  | append_singleton xs v ih =>
    rw [RollingAvg.pushList_append]
    simp only [RollingAvg.push_ms, ih, List.length_append, List.length_singleton]
    omega

/-- Ring-buffer content: after pushing `xs` into a fresh accumulator, slot
`j % N` holds the `j`-th pushed value, for each of the last `min xs.length N`
push indices `j`. -/
theorem RollingAvg.buf_getD_pushList {N : ℕ} (xs : List ℚ) :
    ∀ j, xs.length - N ≤ j → j < xs.length →
      ((RollingAvg.new N).pushList xs).buf.getD (j % N) 0 = xs.getD j 0 := by
  induction xs using List.reverseRecOn with
  | nil => intro j h1 h2; simp at h2
  | append_singleton xs v ih =>
    intro j h1 h2
    rw [RollingAvg.pushList_append]
    simp only [List.length_append, List.length_singleton] at h1 h2
    have hi : ((RollingAvg.new N).pushList xs).i = xs.length := by
      simpa [RollingAvg.new] using RollingAvg.i_pushList (RollingAvg.new N) xs
    have hlen : ((RollingAvg.new N).pushList xs).buf.length = N := by
      simpa [RollingAvg.new] using
        RollingAvg.buf_length_pushList (RollingAvg.new N) xs
    rcases Nat.lt_or_ge j xs.length with hj | hj
    · -- an old slot, not overwritten by this push
      have hN : 0 < N := by omega
      have hne : xs.length % N ≠ j % N := by
        intro he
        have h0 : (xs.length - j) % N = 0 := Nat.sub_mod_eq_zero_of_mod_eq he
        have hdvd : N ∣ xs.length - j := Nat.dvd_of_mod_eq_zero h0
        have hpos : 0 < xs.length - j := by omega
        have := Nat.le_of_dvd hpos hdvd
        omega
      simp only [RollingAvg.push_ms, hi, List.getD_eq_getElem?_getD]
      rw [List.getElem?_set_ne hne]
      have hxs : (xs ++ [v])[j]? = xs[j]? := List.getElem?_append_left hj
      rw [hxs]
      have := ih j (by omega) hj
      simpa [List.getD_eq_getElem?_getD] using this
    · -- the freshly written slot
      have hj' : j = xs.length := by omega
      have hN : 0 < N := by omega
      subst hj'
      simp only [RollingAvg.push_ms, hi, List.getD_eq_getElem?_getD]
      rw [List.getElem?_set]
      simp only [if_pos rfl, hlen, Nat.mod_lt _ hN, if_pos]
      rw [List.getElem?_concat_length]

/-- Shifting by a constant modulo `N` permutes `range N`. -/
theorem map_mod_shift_perm (N c : ℕ) :
    ((List.range N).map (fun s => (s + c) % N)).Perm (List.range N) := by
  rcases Nat.eq_zero_or_pos N with hN | hN
  · subst hN; simp
  have hinj : ∀ x ∈ List.range N, ∀ y ∈ List.range N,
      (x + c) % N = (y + c) % N → x = y := by
    intro x hx y hy hxy
    simp only [List.mem_range] at hx hy
    have h' : x ≡ y [MOD N] := Nat.ModEq.add_right_cancel' c hxy
    rwa [Nat.ModEq, Nat.mod_eq_of_lt hx, Nat.mod_eq_of_lt hy] at h'
  have hnd : ((List.range N).map (fun s => (s + c) % N)).Nodup :=
    List.Nodup.map_on hinj (List.nodup_range N)
  refine List.perm_of_nodup_nodup_toFinset_eq hnd (List.nodup_range N) ?_
  ext t
  simp only [List.mem_toFinset, List.mem_map, List.mem_range]
  constructor
  · rintro ⟨s, _, rfl⟩
    exact Nat.mod_lt _ hN
  · intro ht
    refine ⟨(t + (N - c % N)) % N, Nat.mod_lt _ hN, ?_⟩
    have hc : c % N ≤ N := le_of_lt (Nat.mod_lt _ hN)
    have hdvd : N ∣ c - c % N := by
      have := Nat.div_add_mod c N
      exact ⟨c / N, by omega⟩
    rw [Nat.mod_add_mod]
    have hmlt : c % N < N := Nat.mod_lt _ hN
    have hmle : c % N ≤ c := Nat.mod_le c N
    have : t + (N - c % N) + c = t + N + (c - c % N) := by omega
    rw [this]
    rcases hdvd with ⟨q, hq⟩
    rw [hq]
    rw [Nat.add_mul_mod_self_left]
    simp [Nat.add_mod_left, Nat.mod_eq_of_lt ht]

theorem getD_eq_of_lt {α : Type} (l : List α) (d : α) (n : ℕ) (h : n < l.length) :
    l.getD n d = l[n] := by
  simp [List.getD_eq_getElem?_getD, List.getElem?_eq_getElem h]

/-- With at most `N` pushes, the buffer prefix read by `mean` is literally the
pushed list. -/
theorem RollingAvg.take_pushList_of_le {N : ℕ} (xs : List ℚ) (hk : xs.length ≤ N) :
    ((RollingAvg.new N).pushList xs).buf.take xs.length = xs := by
  have hlen : ((RollingAvg.new N).pushList xs).buf.length = N := by
    simpa [RollingAvg.new] using RollingAvg.buf_length_pushList (RollingAvg.new N) xs
  apply List.ext_getElem
  · simp only [List.length_take, hlen]
    omega
  · intro j h1 h2
    have hj : j < xs.length := h2
    have hjN : j < N := lt_of_lt_of_le hj hk
    rw [List.getElem_take]
    have hq := RollingAvg.buf_getD_pushList (N := N) xs j (by omega) hj
    rw [Nat.mod_eq_of_lt hjN] at hq
    rw [getD_eq_of_lt _ _ _ (by omega), getD_eq_of_lt _ _ _ hj] at hq
    exact hq

/-- Ring-buffer eviction: the buffer prefix read by `mean` is a permutation of
the most recent `min xs.length N` pushed values. -/
theorem RollingAvg.take_pushList_perm_recent {N : ℕ} (xs : List ℚ) :
    (((RollingAvg.new N).pushList xs).buf.take (min xs.length N)).Perm
      (recentOf N xs) := by
  rcases le_or_lt xs.length N with hk | hk
  · have h1 : min xs.length N = xs.length := by omega
    have h2 : recentOf N xs = xs := by
      have : xs.length - N = 0 := by omega
      simp [recentOf, this]
    rw [h1, h2, RollingAvg.take_pushList_of_le xs hk]
  · rcases Nat.eq_zero_or_pos N with hN0 | hN
    · subst hN0
      simp [recentOf, List.drop_length]
    have hNk : N ≤ xs.length := le_of_lt hk
    have hlen : ((RollingAvg.new N).pushList xs).buf.length = N := by
      simpa [RollingAvg.new] using RollingAvg.buf_length_pushList (RollingAvg.new N) xs
    have hrlt : (xs.length - N) % N < N := Nat.mod_lt _ hN
    have hrle : (xs.length - N) % N ≤ xs.length - N := Nat.mod_le _ _
    obtain ⟨q, hq'⟩ : N ∣ (xs.length - N) - (xs.length - N) % N := by
      have := Nat.div_add_mod (xs.length - N) N
      exact ⟨(xs.length - N) / N, by omega⟩
    have htake : ((RollingAvg.new N).pushList xs).buf.take (min xs.length N)
        = ((RollingAvg.new N).pushList xs).buf := by
      apply List.take_of_length_le
      rw [hlen]
      omega
    have hbuf : ((RollingAvg.new N).pushList xs).buf
        = (List.range N).map
            (fun s => xs.getD
              ((xs.length - N) + ((s + (N - (xs.length - N) % N)) % N)) 0) := by
      apply List.ext_getElem
      · simp [hlen]
      · intro s hs1 hs2
        have hsN : s < N := by
          rw [hlen] at hs1
          exact hs1
        have hmodlt : (s + (N - (xs.length - N) % N)) % N < N := Nat.mod_lt _ hN
        have hjlt :
            (xs.length - N) + ((s + (N - (xs.length - N) % N)) % N) < xs.length := by
          omega
        have hjge :
            xs.length - N ≤ (xs.length - N) + ((s + (N - (xs.length - N) % N)) % N) :=
          Nat.le_add_right _ _
        have hq := RollingAvg.buf_getD_pushList (N := N) xs _ hjge hjlt
        have hjmod :
            ((xs.length - N) + ((s + (N - (xs.length - N) % N)) % N)) % N = s := by
          have hsplit :
              (xs.length - N) + ((s + (N - (xs.length - N) % N)) % N)
                = N * q + ((xs.length - N) % N
                    + (s + (N - (xs.length - N) % N)) % N) := by
            omega
          rw [hsplit, Nat.mul_add_mod, Nat.add_mod_mod]
          have hc : (xs.length - N) % N + (s + (N - (xs.length - N) % N))
              = s + N := by
            omega
          rw [hc, Nat.add_mod_right]
          exact Nat.mod_eq_of_lt hsN
        rw [hjmod] at hq
        rw [getD_eq_of_lt _ _ _ (by omega)] at hq
        rw [List.getElem_map, List.getElem_range]
        exact hq
    have hdrop : recentOf N xs
        = (List.range N).map (fun t => xs.getD ((xs.length - N) + t) 0) := by
      apply List.ext_getElem
      · simp only [recentOf, List.length_drop, List.length_map, List.length_range]
        omega
      · intro t ht1 ht2
        have htN : t < N := by simpa using ht2
        rw [List.getElem_map, List.getElem_range]
        simp only [recentOf, List.getElem_drop]
        rw [getD_eq_of_lt _ _ _ (by omega)]
    rw [htake, hbuf, hdrop]
    have hmm : (List.range N).map
          (fun s => xs.getD
            ((xs.length - N) + ((s + (N - (xs.length - N) % N)) % N)) 0)
        = ((List.range N).map (fun s => (s + (N - (xs.length - N) % N)) % N)).map
            (fun t => xs.getD ((xs.length - N) + t) 0) := by
      rw [List.map_map]
      rfl
    rw [hmm]
    exact List.Perm.map _ (map_mod_shift_perm N (N - (xs.length - N) % N))

/-- The value `mean` returns after any nonempty push sequence into a fresh
accumulator of positive capacity: the average of the most recent
`min xs.length N` values. -/
theorem RollingAvg.mean_pushList {N : ℕ} (xs : List ℚ) (hN : 1 ≤ N) (hxs : xs ≠ []) :
    ((RollingAvg.new N).pushList xs).mean
      = (recentOf N xs).sum / ((recentOf N xs).length : ℚ) := by
  have hn : ((RollingAvg.new N).pushList xs).n = min xs.length N :=
    RollingAvg.n_pushList xs
  have hxpos : 1 ≤ xs.length := List.length_pos.mpr hxs
  have hmax : max ((RollingAvg.new N).pushList xs).n 1 = min xs.length N := by
    rw [hn]
    omega
  have hsum : (((RollingAvg.new N).pushList xs).buf.take (min xs.length N)).sum
      = (recentOf N xs).sum :=
    (RollingAvg.take_pushList_perm_recent xs).sum_eq
  have hlenr : (recentOf N xs).length = min xs.length N := by
    simp only [recentOf, List.length_drop]
    omega
  rw [RollingAvg.mean, hmax, hsum, hlenr]

/-- After `reset`, `mean` is `0` (the all-zero buffer divided by the floored
count 1). -/
theorem RollingAvg.mean_reset {N : ℕ} (a : RollingAvg N) : a.reset.mean = 0 := by
  simp [RollingAvg.reset, RollingAvg.mean, List.take_replicate, List.sum_replicate]

/-- A fresh accumulator reports `mean = 0`. -/
theorem RollingAvg.mean_new (N : ℕ) : (RollingAvg.new N).mean = 0 := by
  simp [RollingAvg.new, RollingAvg.mean, List.take_replicate, List.sum_replicate]

/-! ### Operation sequences reduce to the pushes since the last reset -/

theorem RollingAvg.runOps_append {N : ℕ} (a : RollingAvg N) (ops : List RAOp)
    (op : RAOp) :
    a.runOps (ops ++ [op]) = (a.runOps ops).applyOp op := by
  simp [RollingAvg.runOps, List.foldl_append]

theorem sinceReset_append_push (ops : List RAOp) (v : ℚ) :
    sinceReset (ops ++ [RAOp.push v]) = sinceReset ops ++ [v] := by
  simp [sinceReset, List.foldl_append]

theorem sinceReset_append_reset (ops : List RAOp) :
    sinceReset (ops ++ [RAOp.reset]) = [] := by
  simp [sinceReset, List.foldl_append]

theorem RollingAvg.buf_length_applyOp {N : ℕ} (a : RollingAvg N) (op : RAOp) :
    (a.applyOp op).buf.length = a.buf.length := by
  cases op <;> simp [RollingAvg.applyOp, RollingAvg.push_ms, RollingAvg.reset]

theorem RollingAvg.buf_length_runOps {N : ℕ} (a : RollingAvg N) (ops : List RAOp) :
    (a.runOps ops).buf.length = a.buf.length := by
  induction ops generalizing a with
  | nil => rfl
  | cons op ops ih =>
    simp only [RollingAvg.runOps, List.foldl_cons]
    simpa [RollingAvg.buf_length_applyOp] using ih (a.applyOp op)

/-- Running any operation sequence from a fresh accumulator gives the same
state as pushing only the values since the last reset. -/
theorem RollingAvg.runOps_eq_pushList {N : ℕ} (ops : List RAOp) :
    (RollingAvg.new N).runOps ops = (RollingAvg.new N).pushList (sinceReset ops) := by
  induction ops using List.reverseRecOn with
  | nil => rfl
  | append_singleton ops op ih =>
    rw [RollingAvg.runOps_append]
    cases op with
    | push v =>
      rw [sinceReset_append_push, RollingAvg.pushList_append, ih]
      rfl
    | reset =>
      rw [sinceReset_append_reset]
      have hlen : ((RollingAvg.new N).runOps ops).buf.length = N := by
        simpa [RollingAvg.new] using
          RollingAvg.buf_length_runOps (RollingAvg.new N) ops
      show ((RollingAvg.new N).runOps ops).reset = (RollingAvg.new N).pushList []
      unfold RollingAvg.reset
      rw [hlen]
      rfl

/-- Closed form for the sum of an affine map over `List.range`. -/
theorem sum_map_range_add (n : ℕ) (a : ℚ) :
    ((List.range n).map (fun (j : ℕ) => (j : ℚ) + a)).sum
      = n * a + n * ((n : ℚ) - 1) / 2 := by
  induction n with
  | zero => simp
  | succ n ih =>
    rw [List.range_succ, List.map_append, List.sum_append, ih]
    simp only [List.map_cons, List.map_nil, List.sum_cons, List.sum_nil]
    push_cast
    ring

/-- Dropping the first `m` entries of an affine map over `range (m + n)`. -/
theorem drop_map_range_add (m n : ℕ) (a : ℚ) :
    ((List.range (m + n)).map (fun (j : ℕ) => (j : ℚ) + a)).drop m
      = (List.range n).map (fun (j : ℕ) => (j : ℚ) + ((m : ℚ) + a)) := by
  rw [← List.map_drop]
  have hr : (List.range (m + n)).drop m = List.range' m n := by
    have h := List.range'_append_1 0 m n
    rw [Nat.zero_add] at h
    rw [List.range_eq_range', Nat.add_comm m n, ← h]
    exact List.drop_left' (by simp)
  rw [hr, List.range'_eq_map_range, List.map_map]
  apply List.map_congr_left
  intro x hx
  simp only [Function.comp]
  push_cast
  ring

/-! ## Claim theorems about `RollingAvg` -/

/-- C2: for every capacity `N ≥ 1` and every operation sequence, when at least
one sample was pushed since the last reset (or construction), `mean` returns
the arithmetic mean of the most recent `min k N` pushed samples; in
particular a single pushed sample `V` yields `mean = V`, and pushing the
values `1, …, C+1` into a capacity-`C` accumulator yields the average of
`2, …, C+1` (the oldest sample is evicted). -/
theorem rollingAvg_mean_recent :
    (∀ (N : ℕ) (ops : List RAOp), 1 ≤ N → sinceReset ops ≠ [] →
        ((RollingAvg.new N).runOps ops).mean
          = (recentOf N (sinceReset ops)).sum
              / ((recentOf N (sinceReset ops)).length : ℚ))
    ∧ (∀ (N : ℕ) (V : ℚ), 1 ≤ N → ((RollingAvg.new N).pushList [V]).mean = V)
    ∧ (∀ C : ℕ, 1 ≤ C →
        ((RollingAvg.new C).pushList
            ((List.range (C + 1)).map (fun (j : ℕ) => (j : ℚ) + 1))).mean
          = ((List.range C).map (fun (j : ℕ) => (j : ℚ) + 2)).sum / (C : ℚ)) := by
  refine ⟨?_, ?_, ?_⟩
  · intro N ops hN hops
    rw [RollingAvg.runOps_eq_pushList]
    exact RollingAvg.mean_pushList (sinceReset ops) hN hops
  · intro N V hN
    rw [RollingAvg.mean_pushList [V] hN (by simp)]
    have h1 : recentOf N [V] = [V] := by
      simp only [recentOf, List.length_singleton]
      rw [Nat.sub_eq_zero_of_le hN]
      rfl
    rw [h1]
    simp
  · intro C hC
    rw [RollingAvg.mean_pushList _ hC (by simp)]
    have hlenv : ((List.range (C + 1)).map (fun (j : ℕ) => (j : ℚ) + 1)).length
        = C + 1 := by
      simp
    have h1 : recentOf C ((List.range (C + 1)).map (fun (j : ℕ) => (j : ℚ) + 1))
        = (List.range C).map (fun (j : ℕ) => (j : ℚ) + 2) := by
      simp only [recentOf, hlenv]
      rw [show C + 1 - C = 1 by omega]
      have h2 := drop_map_range_add 1 C 1
      rw [Nat.add_comm 1 C] at h2
      rw [h2]
      norm_num
    rw [h1]
    simp

/-- C2 witness: a single pushed sample of value 4 into a fresh capacity-2
accumulator yields mean 4. -/
theorem rollingAvg_mean_recent_witness :
    ((RollingAvg.new 2).pushList [(4 : ℚ)]).mean = 4 :=
  rollingAvg_mean_recent.2.1 2 4 (by norm_num)

/-- C3: with capacity 120, pushing the 200 sequential values 1, 2, …, 200
gives a mean equal to the average of the last 120 values 81, …, 200,
namely 140.5. -/
theorem rollingAvg_capacity120_mean :
    ((RollingAvg.new 120).pushList
        ((List.range 200).map (fun (j : ℕ) => (j : ℚ) + 1))).mean
      = ((List.range 120).map (fun (j : ℕ) => (j : ℚ) + 81)).sum / (120 : ℚ)
    ∧ ((RollingAvg.new 120).pushList
        ((List.range 200).map (fun (j : ℕ) => (j : ℚ) + 1))).mean
      = 140.5 := by
  have hlenv : ((List.range 200).map (fun (j : ℕ) => (j : ℚ) + 1)).length = 200 := by
    simp
  have h1 : recentOf 120 ((List.range 200).map (fun (j : ℕ) => (j : ℚ) + 1))
      = (List.range 120).map (fun (j : ℕ) => (j : ℚ) + 81) := by
    simp only [recentOf, hlenv]
    rw [show (200 : ℕ) - 120 = 80 by norm_num]
    have h2 := drop_map_range_add 80 120 1
    rw [show (80 : ℕ) + 120 = 200 by norm_num] at h2
    rw [h2]
    norm_num
  have hmean := RollingAvg.mean_pushList (N := 120)
    ((List.range 200).map (fun (j : ℕ) => (j : ℚ) + 1)) (by norm_num) (by simp)
  rw [h1] at hmean
  have hlen81 : (((List.range 120).map (fun (j : ℕ) => (j : ℚ) + 81)).length : ℚ)
      = 120 := by
    simp
  rw [hlen81] at hmean
  refine ⟨hmean, ?_⟩
  rw [hmean, sum_map_range_add 120 81]
  norm_num

/-- C4: resetting any accumulator state restores the `mean` of a freshly
constructed accumulator, and that fresh value is `0` because the divisor is
floored at `max n 1 = 1` while the buffer is all zeros. -/
theorem rollingAvg_reset_mean :
    ∀ (N : ℕ), 1 ≤ N → ∀ (a : RollingAvg N),
      a.reset.mean = (RollingAvg.new N).mean ∧ (RollingAvg.new N).mean = 0 := by
  intro N _ a
  rw [RollingAvg.mean_reset, RollingAvg.mean_new]
  exact ⟨rfl, rfl⟩

/-- C4 witness: instantiated at capacity 120 and a state holding one sample. -/
theorem rollingAvg_reset_mean_witness :
    ((RollingAvg.new 120).push_ms 7).reset.mean = (RollingAvg.new 120).mean
    ∧ (RollingAvg.new 120).mean = 0 :=
  rollingAvg_reset_mean 120 (by norm_num) ((RollingAvg.new 120).push_ms 7)

/-- C9: for every capacity `N ≥ 1`, every state reachable by `push_ms` and
`reset` calls satisfies the bounds that make the Rust indexing and slicing
panic-free (`i % N` in bounds, slice bound `max n 1 ≤ N`), so the checked
operations return `some`; for `N = 0` the slice bound `max 0 1 = 1` exceeds
the zero-length buffer already on a fresh accumulator. -/
theorem rollingAvg_no_panic :
    (∀ (N : ℕ) (ops : List RAOp) (v : ℚ), 1 ≤ N →
        ((RollingAvg.new N).runOps ops).push_msChecked v
            = some (((RollingAvg.new N).runOps ops).push_ms v)
        ∧ ((RollingAvg.new N).runOps ops).meanChecked
            = some ((RollingAvg.new N).runOps ops).mean)
    ∧ (RollingAvg.new 0).meanChecked = none := by
  constructor
  · intro N ops v hN
    have hlen : ((RollingAvg.new N).runOps ops).buf.length = N := by
      simpa [RollingAvg.new] using
        RollingAvg.buf_length_runOps (RollingAvg.new N) ops
    have hn : ((RollingAvg.new N).runOps ops).n ≤ N := by
      rw [RollingAvg.runOps_eq_pushList, RollingAvg.n_pushList]
      omega
    constructor
    · have hcond : ((RollingAvg.new N).runOps ops).i % N
          < ((RollingAvg.new N).runOps ops).buf.length := by
        rw [hlen]
        exact Nat.mod_lt _ (by omega)
      simp [RollingAvg.push_msChecked, hcond]
    · have hcond : max ((RollingAvg.new N).runOps ops).n 1
          ≤ ((RollingAvg.new N).runOps ops).buf.length := by
        rw [hlen]
        omega
      simp [RollingAvg.meanChecked, hcond]
  · rfl

/-- C9 witness: instantiated at capacity 3 after one push. -/
theorem rollingAvg_no_panic_witness :
    ((RollingAvg.new 3).runOps [RAOp.push 5]).meanChecked
      = some ((RollingAvg.new 3).runOps [RAOp.push 5]).mean :=
  (rollingAvg_no_panic.1 3 [RAOp.push 5] 0 (by norm_num)).2

/-- C10: for every capacity `N ≥ 1` and every sequence of `push_ms`/`reset`
calls, the sample count `n` equals `min k N` where `k` is the number of pushes
since the last reset (or construction), hence `n ≤ N`, and the buffer prefix
`buf[..n]` read by `mean` holds exactly (a permutation of) the most recent
`min k N` pushed values. -/
theorem rollingAvg_count_invariant :
    ∀ (N : ℕ) (ops : List RAOp), 1 ≤ N →
      ((RollingAvg.new N).runOps ops).n = min (sinceReset ops).length N
      ∧ ((RollingAvg.new N).runOps ops).n ≤ N
      ∧ (((RollingAvg.new N).runOps ops).buf.take
            ((RollingAvg.new N).runOps ops).n).Perm
          (recentOf N (sinceReset ops)) := by
  intro N ops _
  rw [RollingAvg.runOps_eq_pushList]
  refine ⟨RollingAvg.n_pushList _, ?_, ?_⟩
  · rw [RollingAvg.n_pushList]
    omega
  · rw [RollingAvg.n_pushList]
    exact RollingAvg.take_pushList_perm_recent _

/-- C10 witness: instantiated at capacity 2 with a reset in the middle. -/
theorem rollingAvg_count_invariant_witness :
    ((RollingAvg.new 2).runOps
        [RAOp.push 1, RAOp.reset, RAOp.push 2, RAOp.push 3, RAOp.push 4]).n
      = min (sinceReset
          [RAOp.push 1, RAOp.reset, RAOp.push 2, RAOp.push 3, RAOp.push 4]).length 2
    ∧ ((RollingAvg.new 2).runOps
        [RAOp.push 1, RAOp.reset, RAOp.push 2, RAOp.push 3, RAOp.push 4]).n ≤ 2
    ∧ (((RollingAvg.new 2).runOps
          [RAOp.push 1, RAOp.reset, RAOp.push 2, RAOp.push 3, RAOp.push 4]).buf.take
        ((RollingAvg.new 2).runOps
          [RAOp.push 1, RAOp.reset, RAOp.push 2, RAOp.push 3, RAOp.push 4]).n).Perm
        (recentOf 2 (sinceReset
          [RAOp.push 1, RAOp.reset, RAOp.push 2, RAOp.push 3, RAOp.push 4])) :=
  rollingAvg_count_invariant 2
    [RAOp.push 1, RAOp.reset, RAOp.push 2, RAOp.push 3, RAOp.push 4] (by norm_num)

/-! ## Decimal representation round-trip (for label uniqueness) -/

/-- Numeric value of a decimal digit character as produced by `Nat.digitChar`. -/
def digitVal (c : Char) : ℕ :=
  if c = '0' then 0 else if c = '1' then 1 else if c = '2' then 2 else
  if c = '3' then 3 else if c = '4' then 4 else if c = '5' then 5 else
  if c = '6' then 6 else if c = '7' then 7 else if c = '8' then 8 else
  if c = '9' then 9 else 10

/-- Value of a digit string, most significant digit first. -/
def charsVal (l : List Char) : ℕ :=
  l.foldl (fun acc c => 10 * acc + digitVal c) 0

theorem digitVal_digitChar : ∀ d, d < 10 → digitVal (Nat.digitChar d) = d := by
  decide

theorem charsVal_concat (l : List Char) (c : Char) :
    charsVal (l ++ [c]) = 10 * charsVal l + digitVal c := by
  simp [charsVal, List.foldl_append]

theorem toDigits_lt10 (n : ℕ) (h : n < 10) :
    Nat.toDigits 10 n = [Nat.digitChar n] := by
  have h10 : n / 10 = 0 := Nat.div_eq_of_lt h
  show Nat.toDigitsCore 10 (n + 1) n [] = _
  simp [Nat.toDigitsCore, h10, Nat.mod_eq_of_lt h]

/-- Fuel and accumulator independence of `Nat.toDigitsCore` at base 10. -/
theorem toDigitsCore_eq (n : ℕ) : ∀ (fuel : ℕ), n < fuel → ∀ (ds : List Char),
    Nat.toDigitsCore 10 fuel n ds = Nat.toDigits 10 n ++ ds := by
  induction n using Nat.strong_induction_on with
  | _ n ih =>
    intro fuel hf ds
    obtain ⟨f, rfl⟩ : ∃ f, fuel = f + 1 := ⟨fuel - 1, by omega⟩
    rcases Nat.eq_zero_or_pos (n / 10) with h0 | h0
    · have hn10 : n < 10 := by
        by_contra hc
        push_neg at hc
        have : 1 ≤ n / 10 := (Nat.one_le_div_iff (by norm_num)).mpr hc
        omega
      rw [toDigits_lt10 n hn10]
      show Nat.toDigitsCore 10 (f + 1) n ds = _
      simp [Nat.toDigitsCore, h0, Nat.mod_eq_of_lt hn10]
    · have h10 : 10 ≤ n := by
        by_contra hc
        push_neg at hc
        rw [Nat.div_eq_of_lt hc] at h0
        omega
      have hne : ¬ n / 10 = 0 := by omega
      have hdivlt : n / 10 < n := Nat.div_lt_self (by omega) (by norm_num)
      have hstep1 : Nat.toDigitsCore 10 (f + 1) n ds
          = Nat.toDigitsCore 10 f (n / 10) (Nat.digitChar (n % 10) :: ds) := by
        simp [Nat.toDigitsCore, hne]
      have hstep2 : Nat.toDigits 10 n
          = Nat.toDigitsCore 10 n (n / 10) [Nat.digitChar (n % 10)] := by
        show Nat.toDigitsCore 10 (n + 1) n [] = _
        simp [Nat.toDigitsCore, hne]
      rw [hstep1, ih (n / 10) hdivlt f (by omega) _, hstep2,
        ih (n / 10) hdivlt n (by omega) _]
      simp

/-- The decimal digits of `n` evaluate back to `n`. -/
theorem charsVal_toDigits (n : ℕ) : charsVal (Nat.toDigits 10 n) = n := by
  induction n using Nat.strong_induction_on with
  | _ n ih =>
    rcases Nat.lt_or_ge n 10 with h | h
    · rw [toDigits_lt10 n h]
      show charsVal [Nat.digitChar n] = n
      simp [charsVal, digitVal_digitChar n h]
    · have hne : ¬ n / 10 = 0 := by
        have : 1 ≤ n / 10 := (Nat.one_le_div_iff (by norm_num)).mpr h
        omega
      have hdivlt : n / 10 < n := Nat.div_lt_self (by omega) (by norm_num)
      have hstep : Nat.toDigits 10 n
          = Nat.toDigits 10 (n / 10) ++ [Nat.digitChar (n % 10)] := by
        have h1 : Nat.toDigits 10 n
            = Nat.toDigitsCore 10 n (n / 10) [Nat.digitChar (n % 10)] := by
          show Nat.toDigitsCore 10 (n + 1) n [] = _
          simp [Nat.toDigitsCore, hne]
        rw [h1]
        exact toDigitsCore_eq (n / 10) n hdivlt _
      rw [hstep, charsVal_concat, ih (n / 10) hdivlt,
        digitVal_digitChar _ (Nat.mod_lt _ (by norm_num))]
      omega

/-- Decimal printing of naturals is injective. -/
theorem natRepr_injective : Function.Injective Nat.repr := by
  intro m n h
  have hd : Nat.toDigits 10 m = Nat.toDigits 10 n := congrArg String.data h
  calc m = charsVal (Nat.toDigits 10 m) := (charsVal_toDigits m).symm
    _ = charsVal (Nat.toDigits 10 n) := by rw [hd]
    _ = n := charsVal_toDigits n

/-- The labels `"P" ++ i.repr` are pairwise distinct. -/
theorem pointLabel_injective :
    Function.Injective (fun i : ℕ => "P" ++ Nat.repr i) := by
  intro a b h
  apply natRepr_injective
  apply String.ext
  have hd := congrArg String.data h
  simp only [String.data_append] at hd
  exact List.append_cancel_left hd

/-! ## Point generation (`make_points`) and its data model -/

/-- Modelled from the external `rand` crate: `StdRng` is a deterministic PRNG
fully determined by its seed; it is abstracted as the seed plus a counter into
a fixed pseudorandom stream of unit-interval rationals (the concrete ChaCha12
keystream is irrelevant to the verified properties, which use only determinism
and the `gen_range` range contract). -/
structure StdRng where
  seed : ℕ
  ctr : ℕ
deriving DecidableEq

/-- A fixed unit-interval sample stream indexed by seed and counter, standing
in for the keystream of the external PRNG. Values lie in `[0, 1)`. -/
def unitSample (seed k : ℕ) : ℚ :=
  (((seed + 1) * 2654435761 + k * 40503) % 1048576 : ℕ) / (1048576 : ℚ)

/-- `SeedableRng::seed_from_u64` (the seed is a `u64`). -/
def StdRng.seed_from_u64 (s : ℕ) : StdRng :=
  ⟨s % 2 ^ 64, 0⟩

/-- `Rng::gen_range(lo..hi)` on `f64`: the next value in `[lo, hi)`, advancing
the generator state. -/
def StdRng.gen_range (r : StdRng) (lo hi : ℚ) : ℚ × StdRng :=
  (lo + unitSample r.seed r.ctr * (hi - lo), ⟨r.seed, r.ctr + 1⟩)

theorem unitSample_nonneg (seed k : ℕ) : 0 ≤ unitSample seed k := by
  unfold unitSample
  positivity

theorem unitSample_lt_one (seed k : ℕ) : unitSample seed k < 1 := by
  unfold unitSample
  rw [div_lt_one (by norm_num)]
  exact_mod_cast Nat.mod_lt ((seed + 1) * 2654435761 + k * 40503) (by norm_num)

/-- `walkers::lon_lat`: a geographic position, modelled as the exact pair
`(lon, lat)`. -/
def lon_lat (lon lat : ℚ) : ℚ × ℚ :=
  (lon, lat)

namespace Walkers

/-- `walkers::extras::Symbol` (only the `Circle` variant is used here); placed
in a namespace because the bare name collides with an unrelated Mathlib
declaration. -/
inductive Symbol where
  | Circle (glyph : String)
deriving DecidableEq

end Walkers

/-- `walkers::extras::LabeledSymbolStyle`: only `symbol_size` is observable in
this program; the other style fields of the external widget never influence a
verified property. -/
structure LabeledSymbolStyle where
  symbol_size : ℚ
deriving DecidableEq, Inhabited

/-- `walkers::extras::LabeledSymbol`. -/
structure LabeledSymbol where
  position : ℚ × ℚ
  label : String
  symbol : Option Walkers.Symbol
  style : LabeledSymbolStyle
deriving DecidableEq, Inhabited

/-- Loop body of `make_points`: starting at index `i` with RNG state `rng`,
produce the remaining `rem` labeled points — lon sampled before lat, label
`format!("P{i}")`, bullet circle glyph, `symbol_size` overwritten to `5.0`
on the default style. -/
def makePointsFrom (rng : StdRng) (i : ℕ) : ℕ → List LabeledSymbol
  | 0 => []
  | rem + 1 =>
    let lonR := rng.gen_range (2.25 : ℚ) (2.45 : ℚ)
    let latR := lonR.2.gen_range (48.80 : ℚ) (48.92 : ℚ)
    ⟨lon_lat lonR.1 latR.1, "P" ++ Nat.repr i, some (Walkers.Symbol.Circle "•"), ⟨5⟩⟩
      :: makePointsFrom latR.2 (i + 1) rem

/-- `make_points(n)`: `n` labeled points inside the Paris bbox, generated from
`StdRng::seed_from_u64(42)`. The `ambient` argument models the process-ambient
entropy a nondeterministically seeded generator would read; the source seeds
with the constant `42`, so it is never consulted. -/
def make_points (ambient : ℕ) (n : ℕ) : List LabeledSymbol :=
  makePointsFrom (StdRng.seed_from_u64 42) 0 n

theorem makePointsFrom_labels (rng : StdRng) (i rem : ℕ) :
    (makePointsFrom rng i rem).map LabeledSymbol.label
      = (List.range' i rem).map (fun j => "P" ++ Nat.repr j) := by
  induction rem generalizing rng i with
  | zero => rfl
  | succ rem ih =>
    rw [List.range'_succ]
    simp only [makePointsFrom, List.map_cons]
    rw [ih]

theorem makePointsFrom_bbox (rng : StdRng) (i rem : ℕ) :
    ∀ p ∈ makePointsFrom rng i rem,
      2.25 ≤ p.position.1 ∧ p.position.1 ≤ 2.45
      ∧ 48.80 ≤ p.position.2 ∧ p.position.2 ≤ 48.92 := by
  induction rem generalizing rng i with
  | zero =>
    intro p hp
    simp [makePointsFrom] at hp
  | succ rem ih =>
    intro p hp
    simp only [makePointsFrom, List.mem_cons] at hp
    rcases hp with hp | hp
    · subst hp
      have h1 := unitSample_nonneg rng.seed rng.ctr
      have h2 := unitSample_lt_one rng.seed rng.ctr
      have h3 := unitSample_nonneg rng.seed (rng.ctr + 1)
      have h4 := unitSample_lt_one rng.seed (rng.ctr + 1)
      simp only [StdRng.gen_range, lon_lat]
      refine ⟨by nlinarith, by nlinarith, by nlinarith, by nlinarith⟩
    · exact ih _ _ p hp

/-! ## Claim theorems about `make_points` -/

/-- C5: the point generator is deterministic — its output depends only on the
fixed seed 42 baked into the source, never on the ambient entropy of the
process, so any two invocations produce identical coordinate and label
sequences. -/
theorem make_points_deterministic :
    ∀ (e₁ e₂ n : ℕ),
      make_points e₁ n = make_points e₂ n
      ∧ (make_points e₁ n).map LabeledSymbol.position
          = (make_points e₂ n).map LabeledSymbol.position
      ∧ (make_points e₁ n).map LabeledSymbol.label
          = (make_points e₂ n).map LabeledSymbol.label := by
  intro e₁ e₂ n
  exact ⟨rfl, rfl, rfl⟩

/-- C6: every generated point lies in the configured bounding box
(`lon ∈ [2.25, 2.45]`, `lat ∈ [48.80, 48.92]`), and the labels are exactly
`"P" ++ i` for `i = 0, …, n-1`, pairwise distinct. -/
theorem make_points_bbox_labels :
    ∀ (ambient n : ℕ),
      (∀ p ∈ make_points ambient n,
          2.25 ≤ p.position.1 ∧ p.position.1 ≤ 2.45
          ∧ 48.80 ≤ p.position.2 ∧ p.position.2 ≤ 48.92)
      ∧ (make_points ambient n).map LabeledSymbol.label
          = (List.range n).map (fun i => "P" ++ Nat.repr i)
      ∧ ((make_points ambient n).map LabeledSymbol.label).Nodup := by
  intro ambient n
  refine ⟨makePointsFrom_bbox _ _ _, ?_, ?_⟩
  · rw [make_points, makePointsFrom_labels, ← List.range_eq_range']
  · rw [make_points, makePointsFrom_labels, ← List.range_eq_range']
    exact List.Nodup.map pointLabel_injective (List.nodup_range n)

/-- C6 witness: the single point of `make_points 0 1` lies in the bbox. -/
theorem make_points_bbox_labels_witness :
    2.25 ≤ ((make_points 0 1).headI).position.1
    ∧ ((make_points 0 1).headI).position.1 ≤ 2.45
    ∧ 48.80 ≤ ((make_points 0 1).headI).position.2
    ∧ ((make_points 0 1).headI).position.2 ≤ 48.92 :=
  (make_points_bbox_labels 0 1).1 (make_points 0 1).headI
    (by simp [make_points, makePointsFrom])

/-! ## Application state and per-frame update (`PerfApp`) -/

/-- `walkers::MapMemory`: opaque map view/camera state owned by the external
library; no field of it is observed by any verified property. -/
structure MapMemory where
deriving DecidableEq, Inhabited

/-- `walkers::extras::LabeledSymbolGroupStyle` (entirely external/opaque). -/
structure LabeledSymbolGroupStyle where
deriving DecidableEq, Inhabited

/-- `walkers::extras::LabeledSymbolGroup`. -/
structure LabeledSymbolGroup where
  style : LabeledSymbolGroupStyle
deriving DecidableEq, Inhabited

/-- `walkers::extras::Places<LabeledSymbol>`: the ungrouped overlay plugin,
holding the point list it renders. -/
structure Places where
  points : List LabeledSymbol
deriving DecidableEq

/-- `walkers::extras::GroupedPlaces<LabeledSymbol, LabeledSymbolGroup>`: the
clustering overlay plugin. -/
structure GroupedPlaces where
  points : List LabeledSymbol
  group_style : LabeledSymbolGroup
deriving DecidableEq

/-- `make_places_plugin`: plain `Places` plugin. -/
def make_places_plugin (points : List LabeledSymbol) : Places :=
  ⟨points⟩

/-- `make_grouped_plugin`: `GroupedPlaces` with the default bubble style. -/
def make_grouped_plugin (points : List LabeledSymbol) : GroupedPlaces :=
  ⟨points, ⟨⟨⟩⟩⟩

/-- `PerfApp` (`#[derive(Default)]`): map memory, lazily generated point set,
mode flag, rolling average over the last 120 frames. -/
structure PerfApp where
  memory : MapMemory
  points : Option (List LabeledSymbol)
  use_grouped : Bool
  avg : RollingAvg 120
deriving DecidableEq

/-- `PerfApp::default()`. -/
def PerfApp.default : PerfApp :=
  ⟨⟨⟩, none, false, RollingAvg.new 120⟩

/-- The per-frame inputs consumed by `PerfApp::update`: the top-bar toggle
widget click, the "Reset avg" button click, the Space key, the Alt modifier,
the measured frame duration (`Instant::now`/`elapsed` is an environment
input), and the ambient process entropy. -/
structure FrameInput where
  toggleClicked : Bool
  resetClicked : Bool
  spacePressed : Bool
  altHeld : Bool
  frameDt : ℚ
  ambient : ℕ
deriving DecidableEq

/-- The repaint request issued at the end of a frame
(`ctx.request_repaint()` or `ctx.request_repaint_after(ms)`). -/
inductive RepaintReq where
  | immediate
  | after (ms : ℕ)
deriving DecidableEq

/-- The externally observable outputs of one `PerfApp::update` call: the
plugin that was built (with the points it received), the overlay diagnostic,
and the single repaint request. -/
structure FrameOutput where
  plugin : Places ⊕ GroupedPlaces
  overlayLabel : String
  overlayMean : ℚ
  repaint : RepaintReq
deriving DecidableEq

/-- The point list a plugin was constructed from. -/
def pluginPoints : Places ⊕ GroupedPlaces → List LabeledSymbol
  | .inl p => p.points
  | .inr g => g.points

/-- `PerfApp::update`, one frame: initialize the dataset once; top bar
(`toggle_value` flips the mode when clicked, the "Reset avg" button resets
the average); central panel (build the plugin for the current mode from the
stored point set, measure the frame duration, push it, render the overlay
with the current mean); then Space flips the mode and resets the average;
finally request the next repaint — immediately when Alt is held, else after
16 ms. -/
def PerfApp.update (s : PerfApp) (inp : FrameInput) : PerfApp × FrameOutput :=
  let points0 : Option (List LabeledSymbol) :=
    if s.points.isNone then some (make_points inp.ambient 2000) else s.points
  let points : List LabeledSymbol := points0.getD []
  let grouped1 : Bool := if inp.toggleClicked then !s.use_grouped else s.use_grouped
  let avg1 : RollingAvg 120 := if inp.resetClicked then s.avg.reset else s.avg
  let plugin : Places ⊕ GroupedPlaces :=
    if grouped1 then Sum.inr (make_grouped_plugin points)
    else Sum.inl (make_places_plugin points)
  let avg2 : RollingAvg 120 := avg1.push_ms inp.frameDt
  let overlayLabel : String := if grouped1 then "GroupedPlaces" else "Places"
  let overlayMean : ℚ := avg2.mean
  let grouped2 : Bool := if inp.spacePressed then !grouped1 else grouped1
  let avg3 : RollingAvg 120 := if inp.spacePressed then avg2.reset else avg2
  let repaint : RepaintReq :=
    if inp.altHeld then RepaintReq.immediate else RepaintReq.after 16
  (⟨s.memory, points0, grouped2, avg3⟩,
   ⟨plugin, overlayLabel, overlayMean, repaint⟩)

/-- Final state after a sequence of frames. -/
def PerfApp.updates (s : PerfApp) (l : List FrameInput) : PerfApp :=
  l.foldl (fun st inp => (PerfApp.update st inp).1) s

theorem pluginPoints_branch (c : Bool) (pts : List LabeledSymbol) :
    pluginPoints (if c then Sum.inr (make_grouped_plugin pts)
      else Sum.inl (make_places_plugin pts)) = pts := by
  cases c <;> rfl

/-- One update step preserves an already-generated point set. -/
theorem update_preserves_points (ps : List LabeledSymbol) (s : PerfApp)
    (inp : FrameInput) (h : s.points = some ps) :
    (PerfApp.update s inp).1.points = some ps := by
  simp [PerfApp.update, h]

/-- Any number of update steps preserves an already-generated point set. -/
theorem updates_preserve_points (ps : List LabeledSymbol) :
    ∀ (l : List FrameInput) (s : PerfApp), s.points = some ps →
      (PerfApp.updates s l).points = some ps := by
  intro l
  induction l with
  | nil =>
    intro s h
    simpa [PerfApp.updates] using h
  | cons inp l ih =>
    intro s h
    simp only [PerfApp.updates, List.foldl_cons]
    exact ih _ (update_preserves_points ps s inp h)

/-- The mean after a single push into a fresh capacity-120 accumulator. -/
theorem push_one_mean (v : ℚ) : ((RollingAvg.new 120).push_ms v).mean = v := by
  have h := RollingAvg.mean_pushList (N := 120) [v] (by norm_num) (by simp)
  simp only [recentOf, List.length_singleton] at h
  norm_num at h
  simpa [RollingAvg.pushList] using h

/-! ## Claim theorems about `PerfApp::update` -/

/-- C1 counterexample: clicking the top-bar toggle widget flips the mode
within a frame-update step, yet the rolling average is not reset — after the
step the mean is 7 (the frame duration just pushed), not the fresh-state
value 0. -/
theorem toggle_widget_not_reset :
    ((PerfApp.update ⟨⟨⟩, some [], false, RollingAvg.new 120⟩
        ⟨true, false, false, false, 7, 0⟩).1.use_grouped
      ≠ (⟨⟨⟩, some [], false, RollingAvg.new 120⟩ : PerfApp).use_grouped)
    ∧ ((PerfApp.update ⟨⟨⟩, some [], false, RollingAvg.new 120⟩
        ⟨true, false, false, false, 7, 0⟩).1.avg.mean
      ≠ (RollingAvg.new 120).mean) := by
  constructor
  · simp [PerfApp.update]
  · have h1 : (PerfApp.update ⟨⟨⟩, some [], false, RollingAvg.new 120⟩
        ⟨true, false, false, false, 7, 0⟩).1.avg
        = (RollingAvg.new 120).push_ms 7 := rfl
    rw [h1, push_one_mean, RollingAvg.mean_new]
    norm_num

/-- C1 (amended): only the Space-key toggle resets the rolling average: after
any frame-update step in which Space was pressed, the mode flag is flipped
(relative to its value after the top-bar widget) and the mean equals the
fresh-state value 0; the top-bar toggle widget flips the mode without
resetting the average. -/
theorem space_toggle_resets_avg :
    ∀ (s : PerfApp) (inp : FrameInput), inp.spacePressed = true →
      (PerfApp.update s inp).1.use_grouped
        = !(if inp.toggleClicked then !s.use_grouped else s.use_grouped)
      ∧ (PerfApp.update s inp).1.avg.mean = (RollingAvg.new 120).mean
      ∧ (PerfApp.update s inp).1.avg.mean = 0 := by
  intro s inp h
  have havg : (PerfApp.update s inp).1.avg
      = ((if inp.resetClicked then s.avg.reset else s.avg).push_ms
          inp.frameDt).reset := by
    simp [PerfApp.update, h]
  refine ⟨?_, ?_, ?_⟩
  · simp [PerfApp.update, h]
  · rw [havg, RollingAvg.mean_reset, RollingAvg.mean_new]
  · rw [havg, RollingAvg.mean_reset]

/-- C1 witness: a concrete Space-press step from a state holding samples. -/
theorem space_toggle_resets_avg_witness :
    (PerfApp.update ⟨⟨⟩, some [], true, (RollingAvg.new 120).push_ms 3⟩
        ⟨false, false, true, false, 7, 0⟩).1.use_grouped
      = !(if false then !true else true)
    ∧ (PerfApp.update ⟨⟨⟩, some [], true, (RollingAvg.new 120).push_ms 3⟩
        ⟨false, false, true, false, 7, 0⟩).1.avg.mean = (RollingAvg.new 120).mean
    ∧ (PerfApp.update ⟨⟨⟩, some [], true, (RollingAvg.new 120).push_ms 3⟩
        ⟨false, false, true, false, 7, 0⟩).1.avg.mean = 0 :=
  space_toggle_resets_avg ⟨⟨⟩, some [], true, (RollingAvg.new 120).push_ms 3⟩
    ⟨false, false, true, false, 7, 0⟩ rfl

/-- C7: the point set is generated on the first frame-update step and never
regenerated or mutated afterwards, and on every step the rendering plugin of
either mode is constructed from exactly the stored point set. -/
theorem update_points_stable :
    ∀ (s : PerfApp) (inp : FrameInput) (ps : List LabeledSymbol),
      (s.points = none →
        (PerfApp.update s inp).1.points = some (make_points inp.ambient 2000))
      ∧ (s.points = some ps →
          (PerfApp.update s inp).1.points = some ps
          ∧ pluginPoints (PerfApp.update s inp).2.plugin = ps
          ∧ (PerfApp.update s inp).2.plugin
              = (if (if inp.toggleClicked then !s.use_grouped else s.use_grouped)
                  then Sum.inr (make_grouped_plugin ps)
                  else Sum.inl (make_places_plugin ps))
          ∧ ∀ (l : List FrameInput), (PerfApp.updates s l).points = some ps) := by
  intro s inp ps
  constructor
  · intro h
    simp [PerfApp.update, h]
  · intro h
    have hplug : (PerfApp.update s inp).2.plugin
        = (if (if inp.toggleClicked then !s.use_grouped else s.use_grouped)
            then Sum.inr (make_grouped_plugin ps)
            else Sum.inl (make_places_plugin ps)) := by
      simp [PerfApp.update, h]
    refine ⟨update_preserves_points ps s inp h, ?_, hplug, ?_⟩
    · rw [hplug, pluginPoints_branch]
    · intro l
      exact updates_preserve_points ps l s h

/-- C7 witness: a concrete already-initialized state, one step and a
two-step trace. -/
theorem update_points_stable_witness :
    (PerfApp.update ⟨⟨⟩, some [], false, RollingAvg.new 120⟩
        ⟨false, false, false, false, 0, 0⟩).1.points = some []
    ∧ pluginPoints (PerfApp.update ⟨⟨⟩, some [], false, RollingAvg.new 120⟩
        ⟨false, false, false, false, 0, 0⟩).2.plugin = [] :=
  have h := (update_points_stable ⟨⟨⟩, some [], false, RollingAvg.new 120⟩
    ⟨false, false, false, false, 0, 0⟩ []).2 rfl
  ⟨h.1, h.2.1⟩

/-- C8: every frame-update step ends by issuing exactly one repaint request:
immediate when the Alt modifier is held, otherwise after a fixed 16 ms
delay. -/
theorem update_repaint_policy :
    ∀ (s : PerfApp) (inp : FrameInput),
      (PerfApp.update s inp).2.repaint
        = if inp.altHeld then RepaintReq.immediate else RepaintReq.after 16 := by
  intro s inp
  rfl
